import Mathlib

/-!
Shallow embedding of the C# dependency-graph extractor
(`src/csharpClassParserBasic.ts`) and proofs about it.

JavaScript strings are modelled as `List Char`.  Each definition mirrors one
function of the source file; where a JavaScript library routine is involved
(`String.prototype.split`, `slice`, `substring`, `indexOf`, `replaceAll`, ...)
a helper named `js...` models that routine's ECMAScript semantics.
Non-termination of a source loop is modelled with a fuel parameter whose
exhaustion yields `none`; a result of `none` for every fuel value means the
loop never exits.
-/

set_option autoImplicit false

/-- Whitespace class used for the JavaScript regex class `\s` and for
`String.prototype.trim` (space, tab, LF, CR, VT, FF). -/
def jsWs (c : Char) : Bool :=
  c = ' ' ∨ c = '\t' ∨ c = '\n' ∨ c = '\r' ∨ c = '\x0b' ∨ c = '\x0c'

/-- Word-character class of the JavaScript regex class `\w`: `[A-Za-z0-9_]`. -/
def isWordChar (c : Char) : Bool :=
  ('A' ≤ c ∧ c ≤ 'Z') ∨ ('a' ≤ c ∧ c ≤ 'z') ∨ ('0' ≤ c ∧ c ≤ '9') ∨ c = '_'

/-- Models `String.prototype.trim`: remove leading and trailing whitespace. -/
def trim (l : List Char) : List Char :=
  ((l.dropWhile jsWs).reverse.dropWhile jsWs).reverse

/-- Boolean test that `pre` is a leading segment of `l`
(models `String.prototype.startsWith`). -/
def startsWithL (l pre : List Char) : Bool :=
  pre.isPrefixOf l

/-- Boolean test that `suf` is a trailing segment of `l`
(models `String.prototype.endsWith`). -/
def endsWithL (l suf : List Char) : Bool :=
  suf.isSuffixOf l

/-- Models `String.prototype.split` with a one-character separator:
`"".split(s) = [""]`, and every separator occurrence opens a new part. -/
def jsSplit (sep : Char) : List Char → List (List Char)
  | [] => [[]]
  | c :: rest =>
    if c = sep then [] :: jsSplit sep rest
    else
      match jsSplit sep rest with
      | p :: ps => (c :: p) :: ps
      | [] => [[c]]

/-- Join a list of parts with a one-character separator
(models `Array.prototype.join` with a one-character string). -/
def joinSep (sep : Char) : List (List Char) → List Char
  | [] => []
  | [p] => p
  | p :: ps => p ++ sep :: joinSep sep ps

/-- Models `String.prototype.indexOf` for a one-character search string,
returning `-1` when absent. -/
def jsIndexOfAux (c : Char) : List Char → Nat → Int
  | [], _ => -1
  | x :: rest, i => if x = c then (i : Int) else jsIndexOfAux c rest (i + 1)

def jsIndexOf (c : Char) (l : List Char) : Int :=
  jsIndexOfAux c l 0

/-- Models `String.prototype.indexOf(c, from)` for a one-character search
string starting at position `from`. -/
def jsIndexOfFrom (c : Char) (l : List Char) (from_ : Nat) : Int :=
  match jsIndexOfAux c (l.drop from_) 0 with
  | -1 => -1
  | i => i + from_

/-- Models `String.prototype.lastIndexOf` for a one-character search string. -/
def jsLastIndexOf (c : Char) (l : List Char) : Int :=
  match jsIndexOfAux c l.reverse 0 with
  | -1 => -1
  | i => (l.length : Int) - 1 - i

/-- Models `String.prototype.lastIndexOf(c, from)`: the search runs backwards
from position `from` (inclusive). -/
def jsLastIndexOfFrom (c : Char) (l : List Char) (from_ : Int) : Int :=
  if from_ < 0 then -1
  else jsLastIndexOf c (l.take (from_.toNat + 1))

/-- Models `String.prototype.indexOf` for a substring search. -/
def jsIndexOfSubAux (sub : List Char) : List Char → Nat → Int
  | [], i => if sub.isEmpty then (i : Int) else -1
  | l@(_ :: rest), i => if startsWithL l sub then (i : Int) else jsIndexOfSubAux sub rest (i + 1)

def jsIndexOfSub (sub l : List Char) : Int :=
  jsIndexOfSubAux sub l 0

/-- Models `String.prototype.slice(start, end)` including the treatment of
negative indices (count from the end) and clamping. -/
def jsSlice (l : List Char) (start endIdx : Int) : List Char :=
  let len : Int := l.length
  let s : Int := if start < 0 then max (len + start) 0 else min start len
  let e : Int := if endIdx < 0 then max (len + endIdx) 0 else min endIdx len
  if s < e then (l.take e.toNat).drop s.toNat else []

/-- Models `String.prototype.substring(start, end)`: negative arguments clamp
to `0`, and the two positions are swapped when given out of order. -/
def jsSubstring (l : List Char) (start endIdx : Int) : List Char :=
  let len : Int := l.length
  let s : Int := min (max start 0) len
  let e : Int := min (max endIdx 0) len
  let lo : Int := min s e
  let hi : Int := max s e
  (l.take hi.toNat).drop lo.toNat

/-- Models indexing `str[i]` on a JavaScript string: `none` plays the role of
`undefined` for an out-of-range index. -/
def jsCharAt (l : List Char) (i : Int) : Option Char :=
  if i < 0 then none else l.get? i.toNat

/-- Collapse a list of optional values to an optional list; `none` as soon as
one element is `none`. -/
def allSome {α : Type} : List (Option α) → Option (List α)
  | [] => some []
  | none :: _ => none
  | some a :: rest =>
    match allSome rest with
    | some as_ => some (a :: as_)
    | none => none

/-!  The depth-aware scanner (`BRACKETS`, `bracketsToIncludes`, `findNext`). -/

def BRACKETS.ANGLE : Nat := 1
def BRACKETS.ROUND : Nat := 2
def BRACKETS.BOX : Nat := 4
def BRACKETS.CURLY : Nat := 8
def BRACKETS.STRING : Nat := 16
def BRACKETS.CHAR : Nat := 32
def BRACKETS.ALL : Nat := 63

/-- Absolute value on `Int`, as produced by `Math.abs` on the toggles. -/
def jsAbs (i : Int) : Int :=
  if i < 0 then -i else i

/-- The six counters of `findNext`: one signed counter per bracket kind and a
0/1 toggle per literal kind, in the array order of the source. -/
structure Depths where
  angle : Int
  round : Int
  box : Int
  curly : Int
  string : Int
  char : Int
deriving DecidableEq

def Depths.init : Depths := ⟨0, 0, 0, 0, 0, 0⟩

def Depths.sum (d : Depths) : Int :=
  d.angle + d.round + d.box + d.curly + d.string + d.char

/-- Models `bracketsToIncludes`: update the counters for one character under
the bit mask `brackets`, and report whether the updated sum is zero. -/
def bracketsToIncludes (d : Depths) (brackets : Nat) (c : Char) : Depths × Bool :=
  let a := if brackets &&& BRACKETS.ANGLE ≠ 0 ∧ c = '<' then d.angle + 1 else d.angle
  let a := if brackets &&& BRACKETS.ANGLE ≠ 0 ∧ c = '>' then a - 1 else a
  let r := if brackets &&& BRACKETS.ROUND ≠ 0 ∧ c = '(' then d.round + 1 else d.round
  let r := if brackets &&& BRACKETS.ROUND ≠ 0 ∧ c = ')' then r - 1 else r
  let b := if brackets &&& BRACKETS.BOX ≠ 0 ∧ c = '[' then d.box + 1 else d.box
  let b := if brackets &&& BRACKETS.BOX ≠ 0 ∧ c = ']' then b - 1 else b
  let k := if brackets &&& BRACKETS.CURLY ≠ 0 ∧ c = '{' then d.curly + 1 else d.curly
  let k := if brackets &&& BRACKETS.CURLY ≠ 0 ∧ c = '}' then k - 1 else k
  let s := if brackets &&& BRACKETS.STRING ≠ 0 ∧ c = '"' then jsAbs (d.string - 1) else d.string
  let h := if brackets &&& BRACKETS.CHAR ≠ 0 ∧ c = '\'' then jsAbs (d.char - 1) else d.char
  let d' : Depths := ⟨a, r, b, k, s, h⟩
  (d', d'.sum = 0)

/-- Loop body of `findNext`: walk the suffix, updating the depth state for the
current character before testing `str.startsWith(search, index)`. -/
def findNextAux (search : List Char) (ignore : Nat) : List Char → Nat → Depths → Int
  | [], _, _ => -1
  | c :: rest, index, d =>
    let (d', ok) := bracketsToIncludes d ignore c
    if ok ∧ startsWithL (c :: rest) search then (index : Int)
    else findNextAux search ignore rest (index + 1) d'

/-- Models `findNext(str, search, ignore, startIndex)`: first index at or after
`startIndex` where `search` occurs with all tracked depth counters at zero. -/
def findNext (str search : List Char) (ignore : Nat) (startIndex : Nat) : Int :=
  findNextAux search ignore (str.drop startIndex) startIndex Depths.init

/-!  `splitByTopLevelCommas`. -/

/-- Loop of `splitByTopLevelCommas`: `depth` is `angleBracketDepth` (a signed
JavaScript number) and `currentPart` the accumulator.  On a top-level comma the
trimmed current part is pushed unconditionally; the final part only when its
trimmed form is nonempty. -/
def splitByTopLevelCommasAux : List Char → Int → List Char → List (List Char)
  | [], _, currentPart =>
    if (trim currentPart).isEmpty then [] else [trim currentPart]
  | c :: rest, depth, currentPart =>
    if c = '<' then splitByTopLevelCommasAux rest (depth + 1) (currentPart ++ [c])
    else if c = '>' then splitByTopLevelCommasAux rest (depth - 1) (currentPart ++ [c])
    else if c = ',' ∧ depth = 0 then trim currentPart :: splitByTopLevelCommasAux rest depth []
    else splitByTopLevelCommasAux rest depth (currentPart ++ [c])

/-- Models `splitByTopLevelCommas`: split on commas that are not inside angle
brackets. -/
def splitByTopLevelCommas (str : List Char) : List (List Char) :=
  splitByTopLevelCommasAux str 0 []

/-- Claim C7: splitting `"A, B<C,D>, E"` on top-level commas yields exactly the
three segments `"A"`, `"B<C,D>"`, `"E"`; the comma inside the angle brackets is
not a split point. -/
theorem claim_C7_split_example :
    splitByTopLevelCommas ("A, B<C,D>, E".toList) =
      ["A".toList, "B<C,D>".toList, "E".toList] := by
  decide

/-!  Length lemmas used for the termination of `recursiveParseType`. -/

theorem trim_length_le (l : List Char) : (trim l).length ≤ l.length := by
  unfold trim
  calc ((l.dropWhile jsWs).reverse.dropWhile jsWs).reverse.length
      = ((l.dropWhile jsWs).reverse.dropWhile jsWs).length := List.length_reverse _
    _ ≤ (l.dropWhile jsWs).reverse.length := (List.dropWhile_sublist _).length_le
    _ = (l.dropWhile jsWs).length := List.length_reverse _
    _ ≤ l.length := (List.dropWhile_sublist _).length_le

theorem mem_splitAux_length_le (rest : List Char) :
    ∀ (depth : Int) (cur p : List Char),
      p ∈ splitByTopLevelCommasAux rest depth cur → p.length ≤ cur.length + rest.length := by
  induction rest with
  | nil =>
    intro depth cur p hp
    unfold splitByTopLevelCommasAux at hp
    by_cases h : (trim cur).isEmpty <;> simp [h] at hp
    subst hp
    simpa using trim_length_le cur
  | cons c rest ih =>
    intro depth cur p hp
    unfold splitByTopLevelCommasAux at hp
    by_cases h1 : c = '<'
    · simp only [h1, if_true] at hp
      have := ih (depth + 1) (cur ++ [c]) p (h1 ▸ hp)
      simp at this
      simp
      omega
    · by_cases h2 : c = '>'
      · simp only [h1, h2, if_false, if_true] at hp
        have := ih (depth - 1) (cur ++ [c]) p (h2 ▸ hp)
        simp at this
        simp
        omega
      · by_cases h3 : c = ',' ∧ depth = 0
        · simp only [h1, h2, h3, if_false, if_true] at hp
          rcases List.mem_cons.mp hp with h | h
          · subst h
            have := trim_length_le cur
            simp
            omega
          · have := ih 0 [] p h
            simp at this
            simp
            omega
        · simp only [h1, h2, h3, if_false] at hp
          have := ih depth (cur ++ [c]) p hp
          simp at this
          simp
          omega

theorem mem_split_length_le {p s : List Char} (hp : p ∈ splitByTopLevelCommas s) :
    p.length ≤ s.length := by
  have := mem_splitAux_length_le s 0 [] p hp
  simpa using this

theorem jsSlice_length_le (l : List Char) (start endIdx : Int) (hs : 1 ≤ start) :
    (jsSlice l start endIdx).length ≤ l.length - 1 := by
  have hs0 : ¬ start < 0 := by omega
  unfold jsSlice
  simp only [hs0, if_false]
  split
  case isTrue h1 =>
    split
    case isTrue h2 => rw [List.length_drop, List.length_take]; omega
    case isFalse h2 => simp
  case isFalse h1 =>
    split
    case isTrue h2 => rw [List.length_drop, List.length_take]; omega
    case isFalse h2 => simp

theorem mem_split_slice_length_lt {l p : List Char} {s e : Int}
    (hs : 1 ≤ s) (hl : 1 ≤ l.length) (hp : p ∈ splitByTopLevelCommas (jsSlice l s e)) :
    p.length < l.length := by
  have h1 := mem_split_length_le hp
  have h2 := jsSlice_length_le l s e hs
  omega

theorem jsIndexOfAux_neg_of_not_mem {c : Char} {l : List Char} (h : c ∉ l) :
    ∀ i, jsIndexOfAux c l i = -1 := by
  induction l with
  | nil => intro i; rfl
  | cons x rest ih =>
    intro i
    unfold jsIndexOfAux
    have hx : ¬ x = c := fun he => h (he ▸ List.mem_cons_self x rest)
    simp only [hx, if_false]
    exact ih (fun hm => h (List.mem_cons_of_mem x hm)) (i + 1)

theorem jsIndexOf_neg_of_not_mem {c : Char} {l : List Char} (h : c ∉ l) :
    jsIndexOf c l = -1 :=
  jsIndexOfAux_neg_of_not_mem h 0

theorem mem_of_jsIndexOf_nonneg {c : Char} {l : List Char} (h : 0 ≤ jsIndexOf c l) :
    c ∈ l := by
  by_contra hm
  rw [jsIndexOf_neg_of_not_mem hm] at h
  omega

theorem length_pos_of_jsIndexOf_nonneg {c : Char} {l : List Char}
    (h : 0 ≤ jsIndexOf c l) : 1 ≤ l.length := by
  have := mem_of_jsIndexOf_nonneg h
  cases l with
  | nil => simp at this
  | cons _ _ => simp

theorem exists_cons_of_startsWith_single {l : List Char} {c : Char}
    (h : startsWithL l [c]) : ∃ rest, l = c :: rest := by
  cases l with
  | nil => simp [startsWithL, List.isPrefixOf] at h
  | cons x rest =>
    simp [startsWithL, List.isPrefixOf] at h
    exact ⟨rest, by rw [h]⟩

theorem length_pos_of_startsWith_single {l : List Char} {c : Char}
    (h : startsWithL l [c]) : 1 ≤ l.length := by
  obtain ⟨rest, hr⟩ := exists_cons_of_startsWith_single h
  simp [hr]

/-!  The generic type tree (`interface Type` of the source; `Type` is a Lean
universe keyword, so the inductive is named `Ty`; the `namespace` field is
likewise named `nspace`). -/

inductive Ty : Type where
  | mk : List Char → List Char → List Char → List Ty → Ty

def Ty.className : Ty → List Char
  | .mk c _ _ _ => c

def Ty.nspace : Ty → List Char
  | .mk _ n _ _ => n

def Ty.projectName : Ty → List Char
  | .mk _ _ p _ => p

def Ty.subTypes : Ty → List Ty
  | .mk _ _ _ s => s

def unknownS : List Char := "unknown".toList

def externalS : List Char := "external".toList

/-- Shared helper for the idiom `type.split("<")[0].trim()`: the trimmed text
before the first angle bracket. -/
def baseOf (s : List Char) : List Char :=
  trim ((jsSplit '<' s).headD [])

/-- Models `recursiveParseType`: if a `<` occurs, the text between the first
`<` and the last `>` is split on top-level commas and each part recursed into;
if the whole expression is wrapped in `(...)` it is a value tuple whose parts
are recursed into and whose base name stays empty; otherwise the base name is
the trimmed text before the first `<`. -/
def recursiveParseType (rawType : List Char) : Ty :=
  let subTypes1 : List Ty :=
    if h1 : 0 ≤ jsIndexOf '<' rawType then
      (splitByTopLevelCommas
        (jsSlice rawType (jsIndexOf '<' rawType + 1) (jsLastIndexOf '>' rawType))).attach.map
        (fun p => recursiveParseType p.1)
    else []
  if h2 : startsWithL rawType ['('] ∧ endsWithL rawType [')'] then
    Ty.mk [] unknownS externalS
      (subTypes1 ++
        (splitByTopLevelCommas (jsSlice rawType 1 ((rawType.length : Int) - 1))).attach.map
          (fun p => recursiveParseType p.1))
  else
    Ty.mk (baseOf rawType) unknownS externalS subTypes1
termination_by rawType.length
decreasing_by
  · exact mem_split_slice_length_lt (by omega) (length_pos_of_jsIndexOf_nonneg h1) p.2
  · exact mem_split_slice_length_lt (by omega) (length_pos_of_startsWith_single h2.1) p.2

/-- The exact list of strings on which `recursiveParseType` makes its
recursive calls: the top-level comma parts of the generic argument slice and,
for a tuple, of the parenthesised slice. -/
def typeSubcallArgs (rawType : List Char) : List (List Char) :=
  (if 0 ≤ jsIndexOf '<' rawType then
    splitByTopLevelCommas
      (jsSlice rawType (jsIndexOf '<' rawType + 1) (jsLastIndexOf '>' rawType))
  else []) ++
  (if startsWithL rawType ['('] ∧ endsWithL rawType [')'] then
    splitByTopLevelCommas (jsSlice rawType 1 ((rawType.length : Int) - 1))
  else [])

/-- Claim C5: the generic type tree parser terminates on every input; the
subtrees of `recursiveParseType rawType` are exactly the recursive parses of
`typeSubcallArgs rawType`, and every such argument is a strictly shorter
string than `rawType`, so the recursion is well-founded on string length. -/
theorem claim_C5_subcalls_shorter (rawType : List Char) :
    (recursiveParseType rawType).subTypes = (typeSubcallArgs rawType).map recursiveParseType ∧
    ∀ p ∈ typeSubcallArgs rawType, p.length < rawType.length := by
  constructor
  · rw [recursiveParseType]
    unfold typeSubcallArgs
    by_cases h1 : 0 ≤ jsIndexOf '<' rawType <;>
      by_cases h2 : startsWithL rawType ['('] ∧ endsWithL rawType [')'] <;>
        simp [h1, h2, Ty.subTypes, List.attach_map_val]
  · intro p hp
    unfold typeSubcallArgs at hp
    rcases List.mem_append.mp hp with h | h
    · by_cases h1 : 0 ≤ jsIndexOf '<' rawType
      · rw [if_pos h1] at h
        exact mem_split_slice_length_lt (by omega) (length_pos_of_jsIndexOf_nonneg h1) h
      · rw [if_neg h1] at h
        simp at h
    · by_cases h2 : startsWithL rawType ['('] ∧ endsWithL rawType [')']
      · rw [if_pos h2] at h
        exact mem_split_slice_length_lt (by omega) (length_pos_of_startsWith_single h2.1) h
      · rw [if_neg h2] at h
        simp at h

theorem claim_C5_witness :
    (recursiveParseType ("Dictionary<string, CustomClass>".toList)).subTypes =
      (typeSubcallArgs ("Dictionary<string, CustomClass>".toList)).map recursiveParseType ∧
    ("string".toList).length < ("Dictionary<string, CustomClass>".toList).length :=
  ⟨(claim_C5_subcalls_shorter _).1,
    (claim_C5_subcalls_shorter _).2 ("string".toList) (by decide)⟩

theorem jsSplit_ne_nil (sep : Char) (l : List Char) : jsSplit sep l ≠ [] := by
  induction l with
  | nil => simp [jsSplit]
  | cons c rest ih =>
    unfold jsSplit
    by_cases h : c = sep
    · simp [h]
    · simp only [h, if_false]
      cases hj : jsSplit sep rest with
      | nil => simp
      | cons p ps => simp

theorem jsSplit_head_of_not_mem {sep : Char} {l : List Char} (h : sep ∉ l) :
    (jsSplit sep l).headD [] = l := by
  induction l with
  | nil => rfl
  | cons c rest ih =>
    have hc : ¬ c = sep := by
      intro he
      exact h (by rw [he]; exact List.mem_cons_self _ _)
    unfold jsSplit
    simp only [hc, if_false]
    cases hj : jsSplit sep rest with
    | nil => exact absurd hj (jsSplit_ne_nil sep rest)
    | cons p ps =>
      have hrest : sep ∉ rest := fun hm => h (List.mem_cons_of_mem c hm)
      have hp : p = rest := by
        have := ih hrest
        rw [hj] at this
        simpa using this
      simp [hp]

/-- Claim C6: for every type expression containing neither `<` nor `(`,
`recursiveParseType` returns a leaf node: no children, base name the trimmed
input, and the unresolved namespace and project placeholders. -/
theorem claim_C6_leaf (rawType : List Char) (h1 : '<' ∉ rawType) (h2 : '(' ∉ rawType) :
    recursiveParseType rawType = Ty.mk (trim rawType) unknownS externalS [] := by
  have hi : ¬ 0 ≤ jsIndexOf '<' rawType := by
    rw [jsIndexOf_neg_of_not_mem h1]
    omega
  have hs : ¬ (startsWithL rawType ['('] ∧ endsWithL rawType [')']) := by
    rintro ⟨hsw, -⟩
    obtain ⟨rest, hr⟩ := exists_cons_of_startsWith_single hsw
    exact h2 (by rw [hr]; exact List.mem_cons_self _ _)
  rw [recursiveParseType]
  simp only [hi, hs, dite_false, dif_neg, not_false_iff]
  unfold baseOf
  rw [jsSplit_head_of_not_mem h1]

theorem claim_C6_witness :
    recursiveParseType ("  CustomRepo  ".toList) =
      Ty.mk ("CustomRepo".toList) unknownS externalS [] := by
  rw [claim_C6_leaf _ (by decide) (by decide)]
  rfl

/-!  Comment stripping (`stripRightComment`).  The source loop is

    let index = 0;
    while (index > -1 && index < line.length - 1) {
      let index = findNext(line, "/", BRACKETS.STRING | BRACKETS.CHAR);
      if (index !== -1 && line[index + 1] === "/") {
        return line.substring(0, index);
      }
    }

The inner `let index` shadows the outer loop variable, which therefore stays
`0` forever: one iteration either returns or the loop repeats in an identical
state.  The loop is modelled with fuel; a result of `none` for every fuel
value means the loop never exits. -/

def stripRightCommentLoop (line : List Char) : Nat → Option (List Char)
  | 0 => none
  | fuel + 1 =>
    if 0 < line.length - 1 then
      let index := findNext line ['/'] (BRACKETS.STRING ||| BRACKETS.CHAR) 0
      if index ≠ -1 ∧ jsCharAt line (index + 1) = some '/' then
        some (jsSubstring line 0 index)
      else stripRightCommentLoop line fuel
    else some line

/-- Models `stripRightComment`: return the line unchanged when it contains no
`//` at all; otherwise run the while loop above. -/
def stripRightComment (fuel : Nat) (line : List Char) : Option (List Char) :=
  if jsIndexOfSub ("//".toList) line = -1 then some line
  else stripRightCommentLoop line fuel

theorem stripRightCommentLoop_none (line : List Char)
    (hg : 0 < line.length - 1)
    (h : ¬ (findNext line ['/'] (BRACKETS.STRING ||| BRACKETS.CHAR) 0 ≠ -1 ∧
        jsCharAt line (findNext line ['/'] (BRACKETS.STRING ||| BRACKETS.CHAR) 0 + 1) = some '/')) :
    ∀ fuel, stripRightCommentLoop line fuel = none := by
  intro fuel
  induction fuel with
  | zero => rfl
  | succ n ih =>
    unfold stripRightCommentLoop
    simp only [hg, if_true, h, if_false]
    exact ih

/-- Claim C4 asserts that `stripRightComment` truncates at the first comment
marker outside literals and otherwise terminates unchanged.  The code refutes
both halves: because the loop variable is shadowed (see above), whenever the
first `/` outside string/character literals is not immediately followed by a
second `/` — for instance after a division operator, or when the only `//`
lies inside a string literal — the loop never exits.  The result `none` for
every fuel value is precisely that divergence. -/
theorem claim_C4_stripRightComment_diverges :
    ∀ fuel : Nat,
      stripRightComment fuel ("var half = total / 2; // note".toList) = none ∧
      stripRightComment fuel ("var url = \"http://x\";".toList) = none := by
  intro fuel
  constructor
  · unfold stripRightComment
    rw [if_neg (by decide)]
    exact stripRightCommentLoop_none _ (by decide) (by decide) fuel
  · unfold stripRightComment
    rw [if_neg (by decide)]
    exact stripRightCommentLoop_none _ (by decide) (by decide) fuel

/-!  The comment and layout normalizer (`preParseText`). -/

/-- Outcome of a JavaScript computation: a normal return, a thrown exception,
or non-termination. -/
inductive JsResult (α : Type) where
  | ok : α → JsResult α
  | thrown : JsResult α
  | diverge : JsResult α

def JsResult.isOk {α : Type} : JsResult α → Bool
  | .ok _ => true
  | .thrown => false
  | .diverge => false

/-- Models `String.prototype.replaceAll` called with a RegExp lacking the `g`
flag: ECMAScript 2021 (String.prototype.replaceAll, step 2.b) throws a
`TypeError` before any matching takes place.  The source's single call site is
`content.replaceAll(/\/\*.*\*\//, "")`, a regex literal with no flags, so the
call always throws. -/
def jsReplaceAllNonGlobalRegex (_content : List Char) : JsResult (List Char) :=
  JsResult.thrown

/-- Models `String.prototype.replaceAll` with a one-character pattern string:
every occurrence of `c` is replaced by `repl`. -/
def replaceAllCharWith (c : Char) (repl : List Char) (l : List Char) : List Char :=
  l.flatMap (fun x => if x = c then repl else [x])

/-- Models `preParseText`: drop lines that are entirely comments, strip right
comments from each remaining line (the `forEach` assignment), join with the
empty separator, remove single-line block comments via
`content.replaceAll(/\/\*.*\*\//, "")`, then reinsert a line break after every
`;`, `{` and `}`.  The outcome is `diverge` when some surviving line makes
`stripRightComment` loop forever, and otherwise `thrown`, because the
block-comment `replaceAll` is invoked with a non-global RegExp; the final
`ok` branch mirrors the remaining source statements but is unreachable. -/
def preParseText (fuel : Nat) (str : List Char) : JsResult (List Char) :=
  match allSome (((jsSplit '\n' str).filter
      (fun line =>
        !(startsWithL (trim line) ("//".toList) || startsWithL (trim line) ("#".toList)))).map
      (stripRightComment fuel)) with
  | none => JsResult.diverge
  | some stripped =>
    match jsReplaceAllNonGlobalRegex stripped.flatten with
    | JsResult.ok content =>
      JsResult.ok (replaceAllCharWith '}' ("\x7d\n".toList)
        (replaceAllCharWith '{' ("\x7b\n".toList)
          (replaceAllCharWith ';' (";\n".toList) content)))
    | JsResult.thrown => JsResult.thrown
    | JsResult.diverge => JsResult.diverge

/-- Claim C3 asserts the normalizer is total and returns a normalized string
for every input.  The code refutes this: `preParseText` never returns
normally on any input and any fuel — either a surviving line makes
`stripRightComment` loop forever, or the block-comment removal throws
`TypeError` because `String.prototype.replaceAll` is called with a RegExp
that has no `g` flag. -/
theorem claim_C3_preParseText_never_returns (fuel : Nat) (str : List Char) :
    (preParseText fuel str).isOk = false := by
  unfold preParseText
  split
  · rfl
  · simp [jsReplaceAllNonGlobalRegex, JsResult.isOk]

/-!  The symbol registry (`ClassMapping`, `registerClassesFromFile`, and
pass 1 of `parseClassDependencies`). -/

structure ClassInfo where
  nspace : List Char
  projectName : List Char
deriving DecidableEq

/-- The registry type `ClassMapping = Map<string, ClassInfo>`.  A JavaScript
`Map` binds exactly one value per key and `set` overwrites, so it is modelled
as a function into `Option ClassInfo`. -/
abbrev ClassMapping : Type := List Char → Option ClassInfo

def emptyMapping : ClassMapping := fun _ => none

/-- Models `Map.prototype.set`. -/
def mapSet (m : ClassMapping) (k : List Char) (v : ClassInfo) : ClassMapping :=
  fun q => if q = k then some v else m q

/-- One attempt of the class regex `\bclass\s+(\w{1,60})` at the start of
`l` (the word-boundary test against the previous character is the caller's):
the literal `class`, one or more whitespace characters, then up to sixty word
characters captured greedily.  Returns the capture and the text after it. -/
def matchClassAt (l : List Char) : Option (List Char × List Char) :=
  if startsWithL l ("class".toList) then
    let afterKw := l.drop 5
    let ws := afterKw.takeWhile jsWs
    if ws.isEmpty then none
    else
      let afterWs := afterKw.drop ws.length
      let name := (afterWs.takeWhile isWordChar).take 60
      if name.isEmpty then none else some (name, afterWs.drop name.length)
  else none

/-- Word-boundary test of `\b` before a word character: start of text, or a
non-word previous character. -/
def isBoundaryBefore : Option Char → Bool
  | none => true
  | some p => !(isWordChar p)

/-- Loop of the global search for `\bclass\s+(\w{1,60})` (the `while` over
`classRegex.exec`): `prev` is the character before the current position; after
a match the search resumes right after the captured name, as `lastIndex`
does.  Every step consumes at least one character, so fuel `l.length + 1`
never runs out. -/
def classScanLoop : Nat → Option Char → List Char → List (List Char)
  | 0, _, _ => []
  | _ + 1, _, [] => []
  | fuel + 1, prev, c :: rest =>
    if isBoundaryBefore prev then
      match matchClassAt (c :: rest) with
      | some (name, after) => name :: classScanLoop fuel (some (name.getLastD c)) after
      | none => classScanLoop fuel (some c) rest
    else classScanLoop fuel (some c) rest

/-- All captures of the global class regex over the text, in match order. -/
def findClassNames (content : List Char) : List (List Char) :=
  classScanLoop (content.length + 1) none content

/-- One attempt of the namespace regex `namespace\s+([\w.]+)` (which has no
word-boundary assertion) at the start of `l`. -/
def matchNamespaceAt (l : List Char) : Option (List Char) :=
  if startsWithL l ("namespace".toList) then
    let after := l.drop 9
    let ws := after.takeWhile jsWs
    if ws.isEmpty then none
    else
      let cap := (after.drop ws.length).takeWhile (fun c => isWordChar c || c = '.')
      if cap.isEmpty then none else some cap
  else none

/-- First match of `namespace\s+([\w.]+)` anywhere in the text (models
`RegExp.prototype.exec` on the non-global namespace regex). -/
def findNamespace : List Char → Option (List Char)
  | [] => none
  | c :: rest =>
    match matchNamespaceAt (c :: rest) with
    | some cap => some cap
    | none => findNamespace rest

/-- The ordered list of `classRegistry.set` calls performed by
`registerClassesFromFile`: for each class found, the bare name, then — when
the file declares a namespace — the qualified `namespace.name`. -/
def registrationsOfFile (content projectName : List Char) : List (List Char × ClassInfo) :=
  let nspace := (findNamespace content).getD []
  (findClassNames content).flatMap (fun cn =>
    (cn, ClassInfo.mk nspace projectName) ::
      (if nspace.isEmpty then []
       else [(nspace ++ '.' :: cn, ClassInfo.mk nspace projectName)]))

/-- Fold a list of registrations into the map in order; each registration is
one `classRegistry.set` call. -/
def applyRegs (regs : List (List Char × ClassInfo)) (m : ClassMapping) : ClassMapping :=
  regs.foldl (fun acc kv => mapSet acc kv.1 kv.2) m

/-- Models `registerClassesFromFile`. -/
def registerClassesFromFile (content projectName : List Char) (m : ClassMapping) : ClassMapping :=
  applyRegs (registrationsOfFile content projectName) m

/-- The file-read capability: `none` models a rejected `readFile`. -/
abbrev FileSys : Type := List Char → Option (List Char)

/-- Pass 1 of `parseClassDependencies`, per file: a failed read is caught and
registers nothing. -/
def registryPassFile (fs : FileSys) (projectName : List Char) (m : ClassMapping)
    (filePath : List Char) : ClassMapping :=
  match fs filePath with
  | none => m
  | some content => registerClassesFromFile content projectName m

/-- Pass 1 of `parseClassDependencies` over all projects and files. -/
def registryPass (fs : FileSys) (projects : List (List Char × List (List Char))) : ClassMapping :=
  projects.foldl (fun m pr => pr.2.foldl (registryPassFile fs pr.1) m) emptyMapping

/-- All registrations of a whole run, in execution order (failed reads
contribute nothing). -/
def allRegistrations (fs : FileSys) (projects : List (List Char × List (List Char))) :
    List (List Char × ClassInfo) :=
  projects.flatMap (fun pr => pr.2.flatMap (fun f =>
    match fs f with
    | none => []
    | some content => registrationsOfFile content pr.1))

/-- The value of the most recent registration of key `k`, if any. -/
def lastWrite (regs : List (List Char × ClassInfo)) (k : List Char) : Option ClassInfo :=
  (regs.reverse.find? (fun kv => kv.1 == k)).map (fun kv => kv.2)


theorem lastWrite_cons (kv : List Char × ClassInfo) (t : List (List Char × ClassInfo))
    (k : List Char) :
    lastWrite (kv :: t) k =
      match lastWrite t k with
      | some v => some v
      | none => if kv.1 = k then some kv.2 else none := by
  unfold lastWrite
  rw [List.reverse_cons, List.find?_append]
  cases ht : t.reverse.find? (fun p => p.1 == k) with
  | some v => simp
  | none =>
    by_cases he : kv.1 = k
    · simp [List.find?, he]
    · have hb : (kv.1 == k) = false := by simp [he]
      simp [List.find?, he, hb]

theorem applyRegs_lookup (regs : List (List Char × ClassInfo)) :
    ∀ (m : ClassMapping) (k : List Char),
      applyRegs regs m k =
        match lastWrite regs k with
        | some v => some v
        | none => m k := by
  induction regs with
  | nil =>
    intro m k
    simp [applyRegs, lastWrite]
  | cons kv t ih =>
    intro m k
    have h1 : applyRegs (kv :: t) m k = applyRegs t (mapSet m kv.1 kv.2) k := rfl
    rw [h1, ih, lastWrite_cons]
    cases ht : lastWrite t k with
    | some v => rfl
    | none =>
      show mapSet m kv.1 kv.2 k = _
      unfold mapSet
      by_cases he : kv.1 = k
      · subst he
        simp
      · rw [if_neg (fun h => he h.symm), if_neg he]

theorem applyRegs_append (a b : List (List Char × ClassInfo)) (m : ClassMapping) :
    applyRegs (a ++ b) m = applyRegs b (applyRegs a m) := by
  unfold applyRegs
  rw [List.foldl_append]

theorem registryPassFiles_eq (fs : FileSys) (pn : List Char) (files : List (List Char)) :
    ∀ m : ClassMapping,
      files.foldl (registryPassFile fs pn) m =
        applyRegs (files.flatMap (fun f =>
          match fs f with
          | none => []
          | some content => registrationsOfFile content pn)) m := by
  induction files with
  | nil => intro m; rfl
  | cons f t ih =>
    intro m
    rw [List.foldl_cons, List.flatMap_cons, applyRegs_append, ih]
    unfold registryPassFile
    cases fs f with
    | none => rfl
    | some content => rfl

theorem registryPass_aux (fs : FileSys) (projects : List (List Char × List (List Char))) :
    ∀ m : ClassMapping,
      projects.foldl (fun m pr => pr.2.foldl (registryPassFile fs pr.1) m) m =
        applyRegs (projects.flatMap (fun pr => pr.2.flatMap (fun f =>
          match fs f with
          | none => []
          | some content => registrationsOfFile content pr.1))) m := by
  induction projects with
  | nil => intro m; rfl
  | cons pr t ih =>
    intro m
    rw [List.foldl_cons, List.flatMap_cons, applyRegs_append, ih, registryPassFiles_eq]

theorem registryPass_eq (fs : FileSys) (projects : List (List Char × List (List Char))) :
    registryPass fs projects = applyRegs (allRegistrations fs projects) emptyMapping := by
  unfold registryPass allRegistrations
  exact registryPass_aux fs projects emptyMapping

/-- Two single-file projects whose files each declare a bare class `Foo`. -/
def fooFs : FileSys := fun p =>
  if p = ("one.cs".toList) then some ("class Foo \x7b \x7d".toList)
  else if p = ("two.cs".toList) then some ("class Foo \x7b \x7d".toList)
  else none

def fooProjects : List (List Char × List (List Char)) :=
  [("ProjOne".toList, ["one.cs".toList]), ("ProjTwo".toList, ["two.cs".toList])]

/-- Claim C8: after the registry build phase every key is bound to exactly one
entry, namely the value of its most recent registration (each registration is
a `Map.set`, which overwrites); in particular, when two projects each declare
a class `Foo` with no namespace, looking up the bare key `Foo` afterwards
returns the project registered last. -/
theorem claim_C8_registry_last_write :
    (∀ (fs : FileSys) (projects : List (List Char × List (List Char))) (k : List Char),
      registryPass fs projects k = lastWrite (allRegistrations fs projects) k) ∧
    registryPass fooFs fooProjects ("Foo".toList) =
      some (ClassInfo.mk [] ("ProjTwo".toList)) := by
  constructor
  · intro fs projects k
    rw [registryPass_eq, applyRegs_lookup]
    cases h : lastWrite (allRegistrations fs projects) k with
    | some v => rfl
    | none => rfl
  · decide

/-!  Data model of the extraction phase (`DependencyInfo`, `Class`, `File`,
`ClassDependency`).  The source's `interface Function` is named `Func` here
(`Function` is a core Lean namespace) and every `namespace` field is named
`nspace` (`namespace` is a Lean keyword). -/

structure DependencyInfo where
  className : List Char
  nspace : List Char
  projectName : List Char
deriving DecidableEq

structure Constructor where
  parameters : List Ty
  name : List Char

structure Func where
  parameters : List Ty
  returnType : Option Ty

/-- Embeds `interface Class` of the source; named `ClassRecord` because
`Class` is taken by Mathlib, and its `variables` field is named `vars`
because `variables` is Lean command syntax. -/
structure ClassRecord where
  className : List Char
  functions : List Func
  constructors : List Constructor
  lines : List Ty
  staticCalls : List Ty
  vars : List Ty
  inheritances : Option (List Ty)

structure BaseFile where
  classes : List ClassRecord
  nspace : List Char
  imports : List (List Char)

structure File extends BaseFile where
  projectName : List Char

structure ClassDependency where
  className : List Char
  projectName : List Char
  nspace : List Char
  dependencies : List DependencyInfo
  filePath : List Char
deriving DecidableEq

/-- The primitive and common framework type names skipped by the resolver. -/
def primitiveTypes : List (List Char) :=
  ["int", "string", "bool", "float", "double", "decimal", "char", "byte",
   "sbyte", "short", "ushort", "uint", "long", "ulong", "object", "dynamic",
   "var", "void", "this", "base", "DateTime", "return", "Guid", "TimeSpan",
   "Task", "List", "Dictionary", "IEnumerable", "IList", "IDictionary",
   "ICollection"].map String.toList

/-- Models `isPrimitiveType`. -/
def isPrimitiveType (type : List Char) : Bool :=
  primitiveTypes.contains (baseOf type) ||
    startsWithL (baseOf type) ("Action".toList) ||
    startsWithL (baseOf type) ("Func".toList) ||
    startsWithL (baseOf type) ("System.".toList)

def systemClasses : List (List Char) :=
  ["Console", "Math", "Environment", "Thread", "File", "Directory", "Path",
   "Convert", "Enum", "Array", "String", "Exception"].map String.toList

/-- Models `isSystemClass`. -/
def isSystemClass (type : List Char) : Bool :=
  systemClasses.contains (baseOf type) || startsWithL (baseOf type) ("System.".toList)

/-!  The dependency resolver. -/

/-- Models `resolveFullyQualifiedName`: split on dots, pop the last segment as
the class name, rejoin the rest as the namespace; a registry hit supplies
namespace and project, a miss marks the dependency external. -/
def resolveFullyQualifiedName (fullName : List Char) (classRegistry : ClassMapping) :
    DependencyInfo :=
  let parts := jsSplit '.' fullName
  match classRegistry fullName with
  | some info => DependencyInfo.mk (parts.getLastD []) info.nspace info.projectName
  | none => DependencyInfo.mk (parts.getLastD []) (joinSep '.' parts.dropLast) externalS

/-- Models `resolveWithNamespace`. -/
def resolveWithNamespace (baseType currentNamespace : List Char)
    (classRegistry : ClassMapping) : Option DependencyInfo :=
  match classRegistry
      (if currentNamespace.isEmpty then baseType else currentNamespace ++ '.' :: baseType) with
  | none => none
  | some info => some (DependencyInfo.mk baseType info.nspace info.projectName)

/-- Models `resolveWithImports`: the first import whose qualified name hits
the registry wins; the emitted namespace is the import text itself. -/
def resolveWithImports (baseType : List Char) :
    List (List Char) → ClassMapping → Option DependencyInfo
  | [], _ => none
  | imp :: rest, classRegistry =>
    match classRegistry (imp ++ '.' :: baseType) with
    | some info => some (DependencyInfo.mk baseType imp info.projectName)
    | none => resolveWithImports baseType rest classRegistry

/-- Models `resolveClassDependency`: fully qualified names go to
`resolveFullyQualifiedName`; otherwise try the current namespace, then the
imports, then default to an external dependency when the name is nonempty. -/
def resolveClassDependency (baseType currentNamespace : List Char)
    (imports : List (List Char)) (classRegistry : ClassMapping) :
    Option DependencyInfo :=
  if ('.' : Char) ∈ baseType then some (resolveFullyQualifiedName baseType classRegistry)
  else
    match resolveWithNamespace baseType currentNamespace classRegistry with
    | some d => some d
    | none =>
      match resolveWithImports baseType imports classRegistry with
      | some d => some d
      | none =>
        if baseType.isEmpty then none
        else some (DependencyInfo.mk baseType unknownS externalS)

theorem joinSep_singleton (sep : Char) (p : List Char) : joinSep sep [p] = p := rfl

theorem joinSep_cons_cons (sep : Char) (p q : List Char) (t : List (List Char)) :
    joinSep sep (p :: q :: t) = p ++ sep :: joinSep sep (q :: t) := rfl

theorem joinSep_jsSplit (sep : Char) (l : List Char) : joinSep sep (jsSplit sep l) = l := by
  induction l with
  | nil => rfl
  | cons c rest ih =>
    unfold jsSplit
    by_cases h : c = sep
    · subst h
      simp only [if_true]
      cases hj : jsSplit c rest with
      | nil => exact absurd hj (jsSplit_ne_nil c rest)
      | cons p ps =>
        rw [hj] at ih
        rw [joinSep_cons_cons, ih]
        rfl
    · simp only [h, if_false]
      cases hj : jsSplit sep rest with
      | nil => exact absurd hj (jsSplit_ne_nil sep rest)
      | cons p ps =>
        rw [hj] at ih
        cases ps with
        | nil =>
          rw [joinSep_singleton]
          rw [joinSep_singleton] at ih
          rw [ih]
        | cons q qs =>
          rw [joinSep_cons_cons] at ih ⊢
          rw [List.cons_append, ih]

theorem not_mem_jsSplit_getLast (sep : Char) (l : List Char) :
    sep ∉ (jsSplit sep l).getLastD [] := by
  induction l with
  | nil => simp [jsSplit]
  | cons c rest ih =>
    unfold jsSplit
    by_cases h : c = sep
    · simp only [h, if_true]
      cases hj : jsSplit sep rest with
      | nil => exact absurd hj (jsSplit_ne_nil sep rest)
      | cons p ps =>
        rw [hj] at ih
        rw [List.getLastD_eq_getLast?, List.getLast?_cons_cons]
        rw [List.getLastD_eq_getLast?] at ih
        exact ih
    · simp only [h, if_false]
      cases hj : jsSplit sep rest with
      | nil => exact absurd hj (jsSplit_ne_nil sep rest)
      | cons p ps =>
        rw [hj] at ih
        cases ps with
        | nil =>
          simp only [List.getLastD_eq_getLast?] at ih ⊢
          simp only [List.getLast?_singleton, Option.getD_some] at ih ⊢
          intro hm
          rcases List.mem_cons.mp hm with h1 | h1
          · exact h h1.symm
          · exact ih h1
        | cons q qs =>
          simp only [List.getLastD_eq_getLast?, List.getLast?_cons_cons] at ih ⊢
          exact ih

theorem two_le_jsSplit_length {sep : Char} {l : List Char} (h : sep ∈ l) :
    2 ≤ (jsSplit sep l).length := by
  induction l with
  | nil => simp at h
  | cons c rest ih =>
    unfold jsSplit
    by_cases hc : c = sep
    · simp only [hc, if_true, List.length_cons]
      have h1 : jsSplit sep rest ≠ [] := jsSplit_ne_nil sep rest
      have h2 : 0 < (jsSplit sep rest).length := List.length_pos.mpr h1
      omega
    · have hr : sep ∈ rest := by
        rcases List.mem_cons.mp h with h1 | h1
        · exact absurd h1.symm hc
        · exact h1
      have h2 := ih hr
      cases hj : jsSplit sep rest with
      | nil => exact absurd hj (jsSplit_ne_nil sep rest)
      | cons p ps =>
        rw [hj] at h2
        simp only [hc, if_false, hj]
        simp only [List.length_cons] at h2 ⊢
        omega

theorem joinSep_dropLast_append (sep : Char) :
    ∀ ps : List (List Char), 2 ≤ ps.length →
      joinSep sep ps.dropLast ++ sep :: ps.getLastD [] = joinSep sep ps := by
  intro ps
  induction ps with
  | nil => intro h; simp at h
  | cons p qs ih =>
    intro h
    cases qs with
    | nil => simp at h
    | cons q t =>
      cases t with
      | nil =>
        show joinSep sep [p] ++ sep :: _ = _
        simp [joinSep]
      | cons r u =>
        have h2 : 2 ≤ (q :: r :: u).length := by
          simp only [List.length_cons]
          omega
        have hih := ih h2
        have hdl : (p :: q :: r :: u).dropLast = p :: (q :: r :: u).dropLast := rfl
        rw [hdl]
        have hjoin : joinSep sep (p :: (q :: r :: u).dropLast) =
            p ++ sep :: joinSep sep ((q :: r :: u).dropLast) := by
          cases hd : (q :: r :: u).dropLast with
          | nil => simp at hd
          | cons x xs => simp [joinSep]
        rw [hjoin]
        have hlast : (p :: q :: r :: u).getLastD [] = (q :: r :: u).getLastD [] := by
          simp only [List.getLastD_eq_getLast?, List.getLast?_cons_cons]
        rw [hlast]
        show (p ++ sep :: joinSep sep ((q :: r :: u).dropLast)) ++
            sep :: (q :: r :: u).getLastD [] = p ++ sep :: joinSep sep (q :: r :: u)
        rw [List.append_assoc, List.cons_append]
        rw [hih]

/-- Claim C9: for a candidate base name containing a dot, the resolver
delegates to `resolveFullyQualifiedName`, whose class name is the last
dot-separated segment (containing no dot itself); on a registry miss the
namespace is everything before that last segment and the project is marked
external, while on a hit the registry's namespace and project are emitted. -/
theorem claim_C9_fully_qualified (baseType currentNamespace : List Char)
    (imports : List (List Char)) (classRegistry : ClassMapping)
    (h : ('.' : Char) ∈ baseType) :
    resolveClassDependency baseType currentNamespace imports classRegistry =
      some (resolveFullyQualifiedName baseType classRegistry) ∧
    (resolveFullyQualifiedName baseType classRegistry).className =
      (jsSplit '.' baseType).getLastD [] ∧
    ('.' : Char) ∉ (resolveFullyQualifiedName baseType classRegistry).className ∧
    (classRegistry baseType = none →
      (resolveFullyQualifiedName baseType classRegistry).projectName = externalS ∧
      (resolveFullyQualifiedName baseType classRegistry).nspace ++
        '.' :: (resolveFullyQualifiedName baseType classRegistry).className = baseType) ∧
    (∀ info, classRegistry baseType = some info →
      (resolveFullyQualifiedName baseType classRegistry).nspace = info.nspace ∧
      (resolveFullyQualifiedName baseType classRegistry).projectName = info.projectName) := by
  refine ⟨?_, ?_, ?_, ?_, ?_⟩
  · rw [resolveClassDependency, if_pos h]
  · unfold resolveFullyQualifiedName
    cases classRegistry baseType <;> rfl
  · have hc : (resolveFullyQualifiedName baseType classRegistry).className =
        (jsSplit '.' baseType).getLastD [] := by
      unfold resolveFullyQualifiedName
      cases classRegistry baseType <;> rfl
    rw [hc]
    exact not_mem_jsSplit_getLast '.' baseType
  · intro hnone
    unfold resolveFullyQualifiedName
    rw [hnone]
    refine ⟨rfl, ?_⟩
    show joinSep '.' (jsSplit '.' baseType).dropLast ++
      '.' :: (jsSplit '.' baseType).getLastD [] = baseType
    rw [joinSep_dropLast_append '.' (jsSplit '.' baseType) (two_le_jsSplit_length h)]
    exact joinSep_jsSplit '.' baseType
  · intro info hsome
    unfold resolveFullyQualifiedName
    rw [hsome]
    exact ⟨rfl, rfl⟩

theorem claim_C9_witness :
    resolveClassDependency ("external.Widget".toList) [] [] emptyMapping =
      some (DependencyInfo.mk ("Widget".toList) ("external".toList) externalS) := by
  rw [(claim_C9_fully_qualified ("external.Widget".toList) [] [] emptyMapping (by decide)).1]
  rfl

/-- Loop of `resolveDependencies` over the candidate list; `resolved` holds
the base names already accepted (the `Set<string>`). -/
def resolveDependenciesLoop (currentClassName : List Char) (classRegistry : ClassMapping)
    (file : File) : List DependencyInfo → List (List Char) → List DependencyInfo
  | [], _ => []
  | dep :: rest, resolved =>
    if isPrimitiveType dep.className ∨ dep.className = currentClassName then
      resolveDependenciesLoop currentClassName classRegistry file rest resolved
    else if baseOf dep.className ∈ resolved then
      resolveDependenciesLoop currentClassName classRegistry file rest resolved
    else
      match resolveClassDependency (baseOf dep.className) file.nspace file.imports
          classRegistry with
      | some info =>
        info :: resolveDependenciesLoop currentClassName classRegistry file rest
          (baseOf dep.className :: resolved)
      | none => resolveDependenciesLoop currentClassName classRegistry file rest resolved

/-- Models `resolveDependencies`, with the source's parameter list.  The body
reads only `dependencies`, `currentClassName`, `file.namespace`,
`file.imports` and the registry; `imports`, `currentNamespace` and
`classItem` are accepted and ignored exactly as in the source. -/
def resolveDependencies (dependencies : List DependencyInfo) (imports : List (List Char))
    (currentNamespace currentClassName : List Char) (classRegistry : ClassMapping)
    (file : File) (classItem : ClassRecord) : List DependencyInfo :=
  resolveDependenciesLoop currentClassName classRegistry file dependencies []

/-- Projection of a `ClassDependency` onto its `DependencyInfo` fields.  The
source passes the `total` array (of `ClassDependency`) directly where
`DependencyInfo[]` is expected — TypeScript structural subtyping — and the
loop reads only the shared fields. -/
def ClassDependency.toDependencyInfo (c : ClassDependency) : DependencyInfo :=
  DependencyInfo.mk c.className c.nspace c.projectName

/-- The record pushed by `resolveClassDependencies` for one class: its
dependencies are resolved from `total`, the records already pushed for the
earlier classes of the same file — not from the class's own extracted type
references (`c` is passed only as the unused `classItem`). -/
def mkClassRecord (filePath : List Char) (file : File) (classRegistry : ClassMapping)
    (total : List ClassDependency) (c : ClassRecord) : ClassDependency :=
  ClassDependency.mk c.className file.projectName file.nspace
    (resolveDependencies (total.map ClassDependency.toDependencyInfo) file.imports
      file.nspace c.className classRegistry file c)
    filePath

/-- The `forEach` push loop of `resolveClassDependencies`. -/
def resolveClassDependenciesAux (filePath : List Char) (file : File)
    (classRegistry : ClassMapping) :
    List ClassDependency → List ClassRecord → List ClassDependency
  | total, [] => total
  | total, c :: cs =>
    resolveClassDependenciesAux filePath file classRegistry
      (total ++ [mkClassRecord filePath file classRegistry total c]) cs

/-- Models `resolveClassDependencies`. -/
def resolveClassDependencies (filePath : List Char) (file : File)
    (classRegistry : ClassMapping) : List ClassDependency :=
  resolveClassDependenciesAux filePath file classRegistry [] file.classes

theorem resolveClassDependenciesAux_length (filePath : List Char) (file : File)
    (classRegistry : ClassMapping) (cs : List ClassRecord) :
    ∀ total, (resolveClassDependenciesAux filePath file classRegistry total cs).length =
      total.length + cs.length := by
  induction cs with
  | nil => intro total; simp [resolveClassDependenciesAux]
  | cons c t ih =>
    intro total
    show (resolveClassDependenciesAux filePath file classRegistry (total ++ [_]) t).length = _
    rw [ih]
    simp
    omega


theorem resolveClassDependenciesAux_take (filePath : List Char) (file : File)
    (classRegistry : ClassMapping) (cs : List ClassRecord) :
    ∀ total, (resolveClassDependenciesAux filePath file classRegistry total cs).take
      total.length = total := by
  induction cs with
  | nil => intro total; simp [resolveClassDependenciesAux]
  | cons c t ih =>
    intro total
    show (resolveClassDependenciesAux filePath file classRegistry
      (total ++ [mkClassRecord filePath file classRegistry total c]) t).take
      total.length = total
    have h1 := ih (total ++ [mkClassRecord filePath file classRegistry total c])
    have h2 : (resolveClassDependenciesAux filePath file classRegistry
        (total ++ [mkClassRecord filePath file classRegistry total c]) t).take total.length =
        ((resolveClassDependenciesAux filePath file classRegistry
          (total ++ [mkClassRecord filePath file classRegistry total c]) t).take
            (total ++ [mkClassRecord filePath file classRegistry total c]).length).take
          total.length := by
      rw [List.take_take]
      congr 1
      simp
    rw [h2, h1, List.take_append_of_le_length (by simp), List.take_length]

theorem resolveClassDependenciesAux_get (filePath : List Char) (file : File)
    (classRegistry : ClassMapping) (cs : List ClassRecord) :
    ∀ total i c, cs.get? i = some c →
      (resolveClassDependenciesAux filePath file classRegistry total cs).get?
        (total.length + i) =
        some (mkClassRecord filePath file classRegistry
          ((resolveClassDependenciesAux filePath file classRegistry total cs).take
            (total.length + i)) c) := by
  induction cs with
  | nil => intro total i c h; simp at h
  | cons c0 t ih =>
    intro total i c h
    cases i with
    | zero =>
      have hc : c = c0 := by simpa using h.symm
      subst hc
      have htake := resolveClassDependenciesAux_take filePath file classRegistry t
        (total ++ [mkClassRecord filePath file classRegistry total c])
      show (resolveClassDependenciesAux filePath file classRegistry
        (total ++ [mkClassRecord filePath file classRegistry total c]) t).get?
        (total.length + 0) =
        some (mkClassRecord filePath file classRegistry
          ((resolveClassDependenciesAux filePath file classRegistry
            (total ++ [mkClassRecord filePath file classRegistry total c]) t).take
            (total.length + 0)) c)
      have hget : (resolveClassDependenciesAux filePath file classRegistry
          (total ++ [mkClassRecord filePath file classRegistry total c]) t).get?
            (total.length + 0) =
          (total ++ [mkClassRecord filePath file classRegistry total c]).get?
            (total.length + 0) := by
        calc (resolveClassDependenciesAux filePath file classRegistry
            (total ++ [mkClassRecord filePath file classRegistry total c]) t).get?
              (total.length + 0)
            = ((resolveClassDependenciesAux filePath file classRegistry
                (total ++ [mkClassRecord filePath file classRegistry total c]) t).take
                  (total ++ [mkClassRecord filePath file classRegistry total c]).length).get?
                (total.length + 0) := (List.get?_take (by simp)).symm
          _ = (total ++ [mkClassRecord filePath file classRegistry total c]).get?
                (total.length + 0) := by rw [htake]
      have htake0 : (resolveClassDependenciesAux filePath file classRegistry
          (total ++ [mkClassRecord filePath file classRegistry total c]) t).take
            (total.length + 0) = total := by
        have h2 : (resolveClassDependenciesAux filePath file classRegistry
            (total ++ [mkClassRecord filePath file classRegistry total c]) t).take
              (total.length + 0) =
            ((resolveClassDependenciesAux filePath file classRegistry
              (total ++ [mkClassRecord filePath file classRegistry total c]) t).take
                (total ++ [mkClassRecord filePath file classRegistry total c]).length).take
              (total.length + 0) := by
          rw [List.take_take]
          congr 1
          simp
        rw [h2, htake, List.take_append_of_le_length (by simp)]
        simp
      rw [hget, htake0]
      rw [List.get?_append_right (by omega)]
      simp
    | succ j =>
      have hj : t.get? j = some c := by simpa using h
      show (resolveClassDependenciesAux filePath file classRegistry
        (total ++ [mkClassRecord filePath file classRegistry total c0]) t).get?
        (total.length + (j + 1)) =
        some (mkClassRecord filePath file classRegistry
          ((resolveClassDependenciesAux filePath file classRegistry
            (total ++ [mkClassRecord filePath file classRegistry total c0]) t).take
            (total.length + (j + 1))) c)
      have harith : total.length + (j + 1) =
          (total ++ [mkClassRecord filePath file classRegistry total c0]).length + j := by
        simp
        omega
      rw [harith]
      exact ih (total ++ [mkClassRecord filePath file classRegistry total c0]) j c hj

/-- Claim C2: for every file, the candidate sequence handed to
`resolveDependencies` for the `i`-th class is derived from the dependency
records already emitted for the earlier classes of that same file (the
`take i` of the output) — not from the class's own extracted type
references — and consequently the first record of every file carries an
empty dependency set. -/
theorem claim_C2_candidates_are_prior_records (filePath : List Char) (file : File)
    (classRegistry : ClassMapping) :
    (resolveClassDependencies filePath file classRegistry).length =
      file.classes.length ∧
    (∀ i c, file.classes.get? i = some c →
      (resolveClassDependencies filePath file classRegistry).get? i =
        some (mkClassRecord filePath file classRegistry
          ((resolveClassDependencies filePath file classRegistry).take i) c)) ∧
    (∀ r, (resolveClassDependencies filePath file classRegistry).head? = some r →
      r.dependencies = []) := by
  refine ⟨?_, ?_, ?_⟩
  · have := resolveClassDependenciesAux_length filePath file classRegistry file.classes []
    simpa [resolveClassDependencies] using this
  · intro i c h
    have := resolveClassDependenciesAux_get filePath file classRegistry file.classes [] i c h
    simpa [resolveClassDependencies] using this
  · intro r hr
    have h0 : (resolveClassDependencies filePath file classRegistry).get? 0 = some r := by
      rw [List.get?_zero]
      exact hr
    cases hc : file.classes.get? 0 with
    | none =>
      exfalso
      have hlen : (resolveClassDependencies filePath file classRegistry).length =
          file.classes.length := by
        have := resolveClassDependenciesAux_length filePath file classRegistry file.classes []
        simpa [resolveClassDependencies] using this
      have h1 : file.classes.length ≤ 0 := List.get?_eq_none.mp hc
      rw [List.get?_eq_none.mpr (by omega)] at h0
      exact Option.noConfusion h0
    | some c =>
      have hget := resolveClassDependenciesAux_get filePath file classRegistry
        file.classes [] 0 c hc
      simp only [List.length_nil, Nat.zero_add] at hget
      have hget2 : (resolveClassDependencies filePath file classRegistry).get? 0 =
          some (mkClassRecord filePath file classRegistry
            ((resolveClassDependencies filePath file classRegistry).take 0) c) := hget
      rw [hget2] at h0
      have hr2 : r = mkClassRecord filePath file classRegistry
          ((resolveClassDependencies filePath file classRegistry).take 0) c := by
        injection h0.symm
      rw [hr2]
      rfl

/-- A concrete two-class file for the witness. -/
def c2ClassA : ClassRecord :=
  ClassRecord.mk ("Alpha".toList) [] [] [] [] [] none

def c2ClassB : ClassRecord :=
  ClassRecord.mk ("Beta".toList) [] [] [] [] [] none

def c2File : File :=
  { classes := [c2ClassA, c2ClassB], nspace := "App".toList, imports := [],
    projectName := "Proj".toList }

theorem claim_C2_witness :
    ((resolveClassDependencies ("f.cs".toList) c2File emptyMapping).head?.map
      (fun r => r.dependencies)) = some [] := by
  have h := (claim_C2_candidates_are_prior_records ("f.cs".toList) c2File
    emptyMapping).2.1 0 c2ClassA rfl
  rw [List.get?_zero] at h
  rw [h]
  rfl

/-!  The per-class extractor.  `preParseText` never returns normally (see
`claim_C3_preParseText_never_returns`), so from `parseClassDependencies` the
code below the normalizer is unreachable; it is embedded nonetheless.  Each
regex of `REGEX` is compiled by hand into the deterministic scan that a
backtracking engine performs on it: greedy runs here are always delimited by
a character the following regex piece cannot match, so only the bounded unit
counters (`{0,3}`, `{0,2}`) and the one lazy capture need explicit
backtracking, which is written out below. -/

/-- Models `extractImports`: for every trimmed line that starts with
`using ` and ends with `;`, keep `slice(5, -1)` trimmed (the slice starts at
the space after `using`). -/
def extractImports (content : List Char) : List (List Char) :=
  (jsSplit '\n' content).filterMap (fun line =>
    if startsWithL (trim line) ("using ".toList) ∧ endsWithL (trim line) [';'] then
      some (trim ((trim line).drop 5).dropLast)
    else none)

/-- One unit of the regex fragment `(?:\w+\s+)`: a nonempty word run followed
by a nonempty whitespace run; `matchUnits k` consumes exactly `k` units. -/
def matchUnits : Nat → List Char → Option (List Char)
  | 0, l => some l
  | k + 1, l =>
    let w := l.takeWhile isWordChar
    if w.isEmpty then none
    else
      let afterW := l.drop w.length
      let s := afterW.takeWhile jsWs
      if s.isEmpty then none
      else matchUnits k (afterW.drop s.length)

/-- Character class `[\w<>[\],.?]` of the field capture. -/
def fieldCapChar (c : Char) : Bool :=
  isWordChar c || c = '<' || c = '>' || c = '[' || c = ']' || c = ',' || c = '.' || c = '?'

/-- Character class `[\w<>[\],.]` of the property and method captures. -/
def typeCapChar (c : Char) : Bool :=
  isWordChar c || c = '<' || c = '>' || c = '[' || c = ']' || c = ',' || c = '.'

/-- Tail of the field/property regexes after the leading units: a nonempty
capture over `capChar`, then `\s+`, `\w+`, `\s*` and one of the terminator
characters. -/
def declTailMatch (capChar : Char → Bool) (terms : List Char) (l : List Char) :
    Option (List Char) :=
  let cap := l.takeWhile capChar
  if cap.isEmpty then none
  else
    let a := l.drop cap.length
    let s1 := a.takeWhile jsWs
    if s1.isEmpty then none
    else
      let b := a.drop s1.length
      let w := b.takeWhile isWordChar
      if w.isEmpty then none
      else
        match (b.drop w.length).dropWhile jsWs with
        | t :: _ => if terms.contains t then some cap else none
        | [] => none

/-- Greedy `(?:\w+\s+){0,maxK}` followed by `declTailMatch`: the engine takes
the largest unit count first and backtracks downwards. -/
def declMatchFrom (capChar : Char → Bool) (terms : List Char) (l : List Char) :
    Nat → Option (List Char)
  | 0 => declTailMatch capChar terms l
  | k + 1 =>
    match matchUnits (k + 1) l with
    | some rest =>
      match declTailMatch capChar terms rest with
      | some cap => some cap
      | none => declMatchFrom capChar terms l k
    | none => declMatchFrom capChar terms l k

/-- Models `REGEX.classField`
`^\s*(?:\w+\s+){0,3}([\w<>[\],.?]+)\s+\w+\s*[=;]` (anchored). -/
def classFieldExec (line : List Char) : Option (List Char) :=
  declMatchFrom fieldCapChar ['=', ';'] (line.dropWhile jsWs) 3

/-- Models `REGEX.classProperty`
`^\s*(?:\w+\s+){0,3}([\w<>[\],.]+)\s+\w+\s*\{` (anchored). -/
def classPropertyExec (line : List Char) : Option (List Char) :=
  declMatchFrom typeCapChar ['{'] (line.dropWhile jsWs) 3

/-- Models `processVariableDeclaration`: try the field pattern, fall back to
the property pattern (`declMatch ??= ...`); skip system classes. -/
def processVariableDeclaration (line : List Char) : Option Ty :=
  match (classFieldExec line).or (classPropertyExec line) with
  | none => none
  | some cap =>
    if isSystemClass (trim cap) then none
    else some (recursiveParseType (trim cap))

/-- Models `addParameterTypeDependency`: the first space-separated token of
the trimmed parameter is its type; parameters with fewer than two tokens and
system classes are skipped. -/
def addParameterTypeDependency (param : List Char) : Option Ty :=
  if (jsSplit ' ' (trim param)).length < 2 then none
  else
    if isSystemClass (trim ((jsSplit ' ' (trim param)).headD [])) then none
    else some (recursiveParseType (trim ((jsSplit ' ' (trim param)).headD [])))

/-- Models `processParameters`. -/
def processParameters (params : List Char) : List Ty :=
  if params.isEmpty then []
  else (splitByTopLevelCommas params).filterMap addParameterTypeDependency

/-- Models `processReturnType`: `void` and system classes yield nothing. -/
def processReturnType (returnType : List Char) : Option Ty :=
  if trim returnType = ("void".toList) ∨ isSystemClass (trim returnType) then none
  else some (recursiveParseType (trim returnType))

def visibilityKeywords : List (List Char) :=
  ["public", "private", "protected", "internal"].map String.toList

/-- Capture tail shared by the method regex: `([\w<>[\],.]+)\s+(\w+)\s*\(([^)]*)\)`. -/
def methodCapMatch (l : List Char) : Option (List Char × List Char × List Char) :=
  let cap := l.takeWhile typeCapChar
  if cap.isEmpty then none
  else
    let a := l.drop cap.length
    let s1 := a.takeWhile jsWs
    if s1.isEmpty then none
    else
      let b := a.drop s1.length
      let w := b.takeWhile isWordChar
      if w.isEmpty then none
      else
        match (b.drop w.length).dropWhile jsWs with
        | '(' :: rest2 =>
          match rest2.drop (rest2.takeWhile (fun c => !(c = ')'))).length with
          | ')' :: _ => some (cap, w, rest2.takeWhile (fun c => !(c = ')')))
          | _ => none
        | _ => none

/-- Greedy `(?:\w+\s+){0,2}` before the method capture tail. -/
def methodUnitsMatch (l : List Char) : Nat → Option (List Char × List Char × List Char)
  | 0 => methodCapMatch l
  | k + 1 =>
    match matchUnits (k + 1) l with
    | some rest =>
      match methodCapMatch rest with
      | some r => some r
      | none => methodUnitsMatch l k
    | none => methodUnitsMatch l k

/-- One attempt of `REGEX.classMethod` at the current position (the `\b` test
is the caller's): a visibility keyword, `\s+`, then the `{0,2}` units and the
capture tail. -/
def methodAttempt (l : List Char) : Option (List Char × List Char × List Char) :=
  match visibilityKeywords.find? (fun kw => startsWithL l kw) with
  | none => none
  | some kw =>
    let after := l.drop kw.length
    let ws := after.takeWhile jsWs
    if ws.isEmpty then none
    else methodUnitsMatch (after.drop ws.length) 2

/-- Generic driver for an unanchored regex with a leading `\b`: try `attempt`
at every position whose previous character passes the boundary test. -/
def scanWithBoundary {α : Type} (attempt : List Char → Option α) :
    Option Char → List Char → Option α
  | _, [] => none
  | prev, c :: rest =>
    match (if isBoundaryBefore prev then attempt (c :: rest) else none) with
    | some r => some r
    | none => scanWithBoundary attempt (some c) rest

/-- Models `REGEX.classMethod.exec` (first match anywhere in the line). -/
def classMethodExec (line : List Char) : Option (List Char × List Char × List Char) :=
  scanWithBoundary methodAttempt none line

/-- Models `processMethodSignature`. -/
def processMethodSignature (line : List Char) : Option Func :=
  match classMethodExec line with
  | none => none
  | some (ret, _name, params) =>
    some (Func.mk (processParameters params) (processReturnType ret))

/-- One attempt of `REGEX.classConstructor`
`\b(?:public|private|protected|internal)\s+(\w+)\s*\(([^)]*)\)`. -/
def constructorAttempt (l : List Char) : Option (List Char × List Char) :=
  match visibilityKeywords.find? (fun kw => startsWithL l kw) with
  | none => none
  | some kw =>
    let after := l.drop kw.length
    let ws := after.takeWhile jsWs
    if ws.isEmpty then none
    else
      let b := after.drop ws.length
      let w := b.takeWhile isWordChar
      if w.isEmpty then none
      else
        match (b.drop w.length).dropWhile jsWs with
        | '(' :: rest2 =>
          match rest2.drop (rest2.takeWhile (fun c => !(c = ')'))).length with
          | ')' :: _ => some (w, rest2.takeWhile (fun c => !(c = ')')))
          | _ => none
        | _ => none

/-- Models `REGEX.classConstructor.exec`. -/
def classConstructorExec (line : List Char) : Option (List Char × List Char) :=
  scanWithBoundary constructorAttempt none line

/-- Models `processConstructSignature`: only constructors whose name equals
the enclosing class name are kept. -/
def processConstructSignature (className : List Char) (line : List Char) :
    Option Constructor :=
  match classConstructorExec line with
  | none => none
  | some (name, params) =>
    if name = className then some (Constructor.mk (processParameters params) name)
    else none

/-- Character class `[\w.<>,]` of the `new`-instantiation capture. -/
def newCapChar (c : Char) : Bool :=
  isWordChar c || c = '.' || c = '<' || c = '>' || c = ','

/-- Lazy matching of `([\w.<>,]+?)\s*[({}]`: extend the capture one class
character at a time and, after each extension, test whether `\s*` and one of
`(`, `{`, `}` follow.  Returns the capture and the text after the bracket. -/
def lazyNewCapture : List Char → List Char → Option (List Char × List Char)
  | _, [] => none
  | acc, x :: xs =>
    if newCapChar x then
      match xs.dropWhile jsWs with
      | y :: ys =>
        if y = '(' ∨ y = '{' ∨ y = '}' then some (acc ++ [x], ys)
        else lazyNewCapture (acc ++ [x]) xs
      | [] => lazyNewCapture (acc ++ [x]) xs
    else none

/-- One attempt of `REGEX.newDeclaration` `new\s+([\w.<>,]+?)\s*[({}]` (note:
no word boundary before `new`) at the current position. -/
def newAttempt (l : List Char) : Option (List Char × List Char) :=
  if startsWithL l ("new".toList) then
    let after := l.drop 3
    let ws := after.takeWhile jsWs
    if ws.isEmpty then none
    else lazyNewCapture [] (after.drop ws.length)
  else none

/-- Global scan for `REGEX.newDeclaration`; after a match the search resumes
after the bracket character (`lastIndex`).  Every step consumes at least one
character, so fuel `l.length + 1` never runs out. -/
def newScanLoop : Nat → List Char → List (List Char)
  | 0, _ => []
  | _ + 1, [] => []
  | fuel + 1, c :: rest =>
    match newAttempt (c :: rest) with
    | some (cap, after) => cap :: newScanLoop fuel after
    | none => newScanLoop fuel rest

/-- Models `findNewInstantiations`. -/
def findNewInstantiations (content : List Char) : List Ty :=
  (newScanLoop (content.length + 1) content).filterMap (fun m =>
    if !isPrimitiveType (trim m) && !isSystemClass (trim m) then
      some (recursiveParseType (trim m))
    else none)

/-- One attempt of `REGEX.staticMethodCall` `\b([A-Z][\w.]*)\.\w+\(` at the
current position (the `\b` test is the caller's).  Backtracking on the greedy
`[\w.]*` run reduces to: the maximal word-or-dot run after the uppercase
letter must have a nonempty all-word segment after its last dot and be
followed by `(`; the capture is the run up to that last dot.  Returns the
capture and the text after the `(`. -/
def staticAttempt : List Char → Option (List Char × List Char)
  | [] => none
  | c :: rest =>
    if 'A' ≤ c ∧ c ≤ 'Z' then
      let wholeRun := c :: rest.takeWhile (fun x => isWordChar x || x = '.')
      let lastSeg := (wholeRun.reverse.takeWhile isWordChar).reverse
      if lastSeg.length < wholeRun.length ∧ !lastSeg.isEmpty then
        match rest.drop (rest.takeWhile (fun x => isWordChar x || x = '.')).length with
        | '(' :: after => some (wholeRun.take (wholeRun.length - lastSeg.length - 1), after)
        | _ => none
      else none
    else none

/-- Global scan for `REGEX.staticMethodCall`. -/
def staticScanLoop : Nat → Option Char → List Char → List (List Char)
  | 0, _, _ => []
  | _ + 1, _, [] => []
  | fuel + 1, prev, c :: rest =>
    if isBoundaryBefore prev then
      match staticAttempt (c :: rest) with
      | some (cap, after) => cap :: staticScanLoop fuel (some '(') after
      | none => staticScanLoop fuel (some c) rest
    else staticScanLoop fuel (some c) rest

/-- Models `findStaticCalls`. -/
def findStaticCalls (content : List Char) : List Ty :=
  (staticScanLoop (content.length + 1) none content).filterMap (fun className =>
    if !isPrimitiveType className && !isSystemClass className &&
        !(["this", "base", "var", "string", "int"].map String.toList).contains className then
      some (recursiveParseType className)
    else none)

/-- Models `findAllTypes`: per line, collect a variable declaration, and a
method signature or — `continue` otherwise — a constructor signature.  The
parsed constructor is pushed into the functions list (`funcs.push(construct)`
in the source, type-compatible by structural subtyping, dropping the `name`
field and leaving `returnType` undefined), so the constructors list itself
stays empty. -/
def findAllTypes (className : List Char) (content : List (List Char)) :
    List Ty × List Func × List Constructor :=
  content.foldl (fun acc line =>
    let vars' := match processVariableDeclaration line with
      | some t => acc.1 ++ [t]
      | none => acc.1
    match processMethodSignature line with
    | some f => (vars', acc.2.1 ++ [f], acc.2.2)
    | none =>
      match processConstructSignature className line with
      | some con => (vars', acc.2.1 ++ [Func.mk con.parameters none], acc.2.2)
      | none => (vars', acc.2.1, acc.2.2)) ([], [], [])

/-- Embeds `interface ClassBody`; the `variables` field is named `vars`. -/
structure ClassBody where
  functions : List Func
  constructors : List Constructor
  lines : List Ty
  staticCalls : List Ty
  vars : List Ty

/-- Models `extractDependenciesFromClassContent`. -/
def extractDependenciesFromClassContent (className : List Char)
    (classContent : List (List Char)) : ClassBody :=
  ClassBody.mk
    (findAllTypes className classContent).2.1
    (findAllTypes className classContent).2.2
    (findNewInstantiations (joinSep '\n' classContent))
    (findStaticCalls (joinSep '\n' classContent))
    (findAllTypes className classContent).1

/-- Models `extractInheritanceDependencies`: the inherited-type list runs from
the first `:` to the first `{` after it (or end of line), split on top-level
commas; entries naming the universal object base are dropped. -/
def extractInheritanceDependencies (line : List Char) : Option (List Ty) :=
  if jsIndexOf ':' line = -1 then none
  else
    let colonIndex := jsIndexOf ':' line
    let braceIndex := jsIndexOfFrom '{' line colonIndex.toNat
    let endIdx : Int := if braceIndex = -1 then (line.length : Int) else braceIndex
    let inheritanceStr := trim (jsSubstring line (colonIndex + 1) endIdx)
    if inheritanceStr.isEmpty then none
    else
      some (((splitByTopLevelCommas inheritanceStr).map recursiveParseType).filter
        (fun p => !(p.className = ("object".toList) ∨ p.className = ("System.Object".toList))))

/-- Models `extractInlineConstructor`, quirks included:
`lastIndexOf(")", startBracketIndex)` searches backwards from the opening
parenthesis, so it can only find a `)` before the `(`; and the `name` slice
starts one character before the last space before the `(`. -/
def extractInlineConstructor (declarationLine : List Char) : Option Constructor :=
  if jsIndexOf '(' declarationLine = -1 then none
  else
    let startBracketIndex := jsIndexOf '(' declarationLine
    let braceIndex := jsIndexOf '{' declarationLine
    if braceIndex ≤ startBracketIndex then none
    else
      let endBracketIndex := jsLastIndexOfFrom ')' declarationLine startBracketIndex
      if endBracketIndex = -1 then none
      else
        some (Constructor.mk
          ((processParameters (jsSubstring declarationLine (startBracketIndex + 1)
            endBracketIndex)).filter
            (fun p => !(p.className = ("object".toList) ∨
              p.className = ("System.Object".toList))))
          (jsSlice declarationLine
            (jsLastIndexOfFrom ' ' declarationLine startBracketIndex - 1) startBracketIndex))

/-- Models `REGEX.class.test(v)`: does `\bclass\s+\w{1,60}` match anywhere? -/
def classTestLoop : Option Char → List Char → Bool
  | _, [] => false
  | prev, c :: rest =>
    if isBoundaryBefore prev ∧ (matchClassAt (c :: rest)).isSome then true
    else classTestLoop (some c) rest

def regexClassTest (line : List Char) : Bool :=
  classTestLoop none line

/-- Consecutive half-open ranges between chunk boundary indices, the last one
running to `stop` (the `while` loop over `classIndices`). -/
def chunkRanges : List Nat → Nat → List (Nat × Nat)
  | [], _ => []
  | [a], stop => [(a, stop)]
  | a :: b :: t, stop => (a, b) :: chunkRanges (b :: t) stop

/-- Models `splitFileIntoClasses`: each line matching the class pattern opens
a chunk running to the line before the next matching line. -/
def splitFileIntoClasses (content : List Char) : List (List (List Char)) :=
  (chunkRanges ((List.range (jsSplit '\n' content).length).filter
      (fun i => regexClassTest ((jsSplit '\n' content).getD i [])))
    (jsSplit '\n' content).length).map
    (fun r => ((jsSplit '\n' content).drop r.1).take (r.2 - r.1))

/-- Models `processSingleClass`.  `REGEX.class` has no capture group, so the
source's `classNameMatch[1]` is `undefined` at runtime although its declared
type is `string`; under the declared types no class-name string exists, and
it is modelled as the empty string.  The choice is immaterial: this function
is unreachable from `parseClassDependencies`, whose extraction throws inside
`preParseText` first (`claim_C3_preParseText_never_returns`), and no claim
depends on it. -/
def processSingleClass (content : List (List Char)) : Option ClassRecord :=
  if regexClassTest (content.headD []) then
    some (ClassRecord.mk []
      (extractDependenciesFromClassContent [] content).functions
      ((extractDependenciesFromClassContent [] content).constructors ++
        (match extractInlineConstructor (content.headD []) with
         | some c => [c]
         | none => []))
      (extractDependenciesFromClassContent [] content).lines
      (extractDependenciesFromClassContent [] content).staticCalls
      (extractDependenciesFromClassContent [] content).vars
      (extractInheritanceDependencies (content.headD [])))
  else none

/-- Models `extractClassesFromFile`: normalize — which throws or diverges,
see `claim_C3_preParseText_never_returns` — then, in the unreachable `ok`
branch, read namespace, imports and classes off the normalized text. -/
def extractClassesFromFile (fuel : Nat) (content : List Char) : JsResult BaseFile :=
  match preParseText fuel content with
  | JsResult.diverge => JsResult.diverge
  | JsResult.thrown => JsResult.thrown
  | JsResult.ok cleanedContent =>
    JsResult.ok (BaseFile.mk
      ((splitFileIntoClasses cleanedContent).filterMap processSingleClass)
      ((findNamespace cleanedContent).getD [])
      (extractImports cleanedContent))

/-- Pass 2 of `parseClassDependencies`, per file: a failed read or a thrown
extraction error is caught (the per-file `catch`) and the file contributes no
records; divergence inside the `try` is not catchable and stalls the run
(`none`). -/
def analysisPassFile (fuel : Nat) (fs : FileSys) (classRegistry : ClassMapping)
    (projectName : List Char) (acc : Option (List ClassDependency))
    (filePath : List Char) : Option (List ClassDependency) :=
  match acc with
  | none => none
  | some records =>
    match fs filePath with
    | none => some records
    | some content =>
      match extractClassesFromFile fuel content with
      | JsResult.diverge => none
      | JsResult.thrown => some records
      | JsResult.ok rawFile =>
        some (records ++ resolveClassDependencies filePath
          (File.mk rawFile projectName) classRegistry)

/-- Models `parseClassDependencies`: `[]` when class dependencies are
excluded; otherwise pass 1 (`registryPass`) builds the registry over the full
input set, then pass 2 extracts and resolves per file against it.  The outer
`Option` is `none` when some file's extraction diverges; thrown errors are
caught per file.  The `console` logging is external I/O and not modelled, and
`complete` is only logged by the source. -/
def parseClassDependencies (fuel : Nat) (fs : FileSys)
    (projectSourceFiles : List (List Char × List (List Char)))
    (complete includeClassDependencies : Bool) : Option (List ClassDependency) :=
  if !includeClassDependencies then some []
  else
    projectSourceFiles.foldl (fun acc pr =>
      pr.2.foldl (analysisPassFile fuel fs (registryPass fs projectSourceFiles) pr.1) acc)
      (some [])

theorem registryPassFiles_filter (fs : FileSys) (pn : List Char) (files : List (List Char)) :
    ∀ m : ClassMapping,
      (files.filter (fun f => (fs f).isSome)).foldl (registryPassFile fs pn) m =
        files.foldl (registryPassFile fs pn) m := by
  induction files with
  | nil => intro m; rfl
  | cons f t ih =>
    intro m
    cases hfs : fs f with
    | none =>
      have h1 : (f :: t).filter (fun f => (fs f).isSome) =
          t.filter (fun f => (fs f).isSome) := by
        simp [List.filter, hfs]
      have h2 : registryPassFile fs pn m f = m := by
        unfold registryPassFile
        rw [hfs]
      rw [h1, ih, List.foldl_cons, h2]
    | some content =>
      have h1 : (f :: t).filter (fun f => (fs f).isSome) =
          f :: t.filter (fun f => (fs f).isSome) := by
        simp [List.filter, hfs]
      rw [h1, List.foldl_cons, List.foldl_cons, ih]

theorem registryPass_filter (fs : FileSys) (projects : List (List Char × List (List Char))) :
    registryPass fs (projects.map (fun pr => (pr.1, pr.2.filter (fun f => (fs f).isSome)))) =
      registryPass fs projects := by
  unfold registryPass
  suffices h : ∀ m : ClassMapping,
      (projects.map (fun pr => (pr.1, pr.2.filter (fun f => (fs f).isSome)))).foldl
        (fun m pr => pr.2.foldl (registryPassFile fs pr.1) m) m =
      projects.foldl (fun m pr => pr.2.foldl (registryPassFile fs pr.1) m) m from
    h emptyMapping
  induction projects with
  | nil => intro m; rfl
  | cons pr t ih =>
    intro m
    rw [List.map_cons, List.foldl_cons, List.foldl_cons]
    show (t.map (fun pr => (pr.1, pr.2.filter (fun f => (fs f).isSome)))).foldl _
      ((pr.2.filter (fun f => (fs f).isSome)).foldl (registryPassFile fs pr.1) m) = _
    rw [registryPassFiles_filter, ih]

theorem analysisPassFiles_filter (fuel : Nat) (fs : FileSys) (reg : ClassMapping)
    (pn : List Char) (files : List (List Char)) :
    ∀ acc : Option (List ClassDependency),
      (files.filter (fun f => (fs f).isSome)).foldl (analysisPassFile fuel fs reg pn) acc =
        files.foldl (analysisPassFile fuel fs reg pn) acc := by
  induction files with
  | nil => intro acc; rfl
  | cons f t ih =>
    intro acc
    cases hfs : fs f with
    | none =>
      have h1 : (f :: t).filter (fun f => (fs f).isSome) =
          t.filter (fun f => (fs f).isSome) := by
        simp [List.filter, hfs]
      have h2 : analysisPassFile fuel fs reg pn acc f = acc := by
        unfold analysisPassFile
        cases acc with
        | none => rfl
        | some records => rw [hfs]
      rw [h1, ih, List.foldl_cons, h2]
    | some content =>
      have h1 : (f :: t).filter (fun f => (fs f).isSome) =
          f :: t.filter (fun f => (fs f).isSome) := by
        simp [List.filter, hfs]
      rw [h1, List.foldl_cons, List.foldl_cons, ih]

theorem analysisPass_filter (fuel : Nat) (fs : FileSys) (reg : ClassMapping)
    (projects : List (List Char × List (List Char))) :
    ∀ acc : Option (List ClassDependency),
      (projects.map (fun pr => (pr.1, pr.2.filter (fun f => (fs f).isSome)))).foldl
        (fun acc pr => pr.2.foldl (analysisPassFile fuel fs reg pr.1) acc) acc =
      projects.foldl (fun acc pr => pr.2.foldl (analysisPassFile fuel fs reg pr.1) acc) acc := by
  induction projects with
  | nil => intro acc; rfl
  | cons pr t ih =>
    intro acc
    rw [List.map_cons, List.foldl_cons, List.foldl_cons]
    show (t.map (fun pr => (pr.1, pr.2.filter (fun f => (fs f).isSome)))).foldl _
      ((pr.2.filter (fun f => (fs f).isSome)).foldl (analysisPassFile fuel fs reg pr.1) acc) = _
    rw [analysisPassFiles_filter, ih]

/-- Claim C10: a failed read of any file is caught in both passes — the file
contributes no registrations in pass 1 and no records in pass 2, and every
other file of every project is processed identically.  Stated as: removing
every unreadable file from the input changes nothing about the run's result
(in particular a read failure alone never stalls or aborts the run). -/
theorem claim_C10_read_failure_isolated (fuel : Nat) (fs : FileSys)
    (projects : List (List Char × List (List Char))) (complete includeDeps : Bool) :
    parseClassDependencies fuel fs projects complete includeDeps =
      parseClassDependencies fuel fs
        (projects.map (fun pr => (pr.1, pr.2.filter (fun f => (fs f).isSome))))
        complete includeDeps := by
  unfold parseClassDependencies
  cases includeDeps with
  | false => rfl
  | true =>
    simp only [Bool.not_true, Bool.false_eq_true, if_false]
    rw [registryPass_filter]
    rw [analysisPass_filter]

/-- The end-to-end example of the spec: one project, a file declaring
`Foo : Base` with a `List<Bar>` field, a `Bar` return type and a `new Bar()`
instantiation, plus a sibling file declaring `Bar`, both in namespace
`App`. -/
def c1FooFile : List Char :=
  ("namespace App;\nclass Foo : Base \x7b\n  private List<Bar> items;\n  public Bar Make() \x7b return new Bar(); \x7d\n\x7d").toList

def c1BarFile : List Char := ("namespace App;\nclass Bar \x7b \x7d").toList

def c1Fs : FileSys := fun p =>
  if p = ("Foo.cs".toList) then some c1FooFile
  else if p = ("Bar.cs".toList) then some c1BarFile
  else none

def c1Projects : List (List Char × List (List Char)) :=
  [("App".toList, ["Foo.cs".toList, "Bar.cs".toList])]

/-- Claim C1 asserts the end-to-end example yields a record for `Foo` whose
dependency set is exactly `Bar` in namespace `App`.  The code refutes it: the
run completes but emits no records at all — for every file the extraction
throws `TypeError` inside `preParseText` (non-global `replaceAll` regex) and
the per-file `catch` swallows it — so no record for `Foo` exists.  Even with
the normalizer repaired, `resolveDependencies` is handed the previously
emitted records instead of the class's own extracted references
(`claim_C2_candidates_are_prior_records`), so `Foo`'s dependency set would be
empty, not `{Bar}`. -/
theorem claim_C1_pipeline_eval :
    parseClassDependencies 1 c1Fs c1Projects true true = some [] := by
  rfl
